import Mathlib

/-!
Verification of the KA-database relevance filter and content fetcher.

Strings are modelled as `List Char` (`Str`).  Python's case-insensitive
substring test `kw in text` is modelled by `hasSub`, built on the decidable
`List.IsInfix` relation.  The keyword configuration (tier-1 keywords,
context words, tier-2 themes), loaded by `config.py` from text files, is
modelled as an explicit `KeywordConfig` value.
-/

set_option maxHeartbeats 1000000
set_option maxRecDepth 8192

namespace KADB

abbrev Str := List Char

/-- `s.lower()` on a Python string, modelled character-wise. -/
def lowerStr (s : Str) : Str := s.map Char.toLower

/-- Python's `needle in hay` substring test on strings. -/
def hasSub (needle hay : Str) : Bool := decide (needle <:+: hay)

/-- `modules/filter.py`, `FilterResult` dataclass. -/
structure FilterResult where
  is_relevant : Bool
  tier : Option Nat
  matched_keywords : List Str
  matched_context : List Str
  theme : Option Str
deriving DecidableEq

/-- The three keyword collections loaded by `config.load_tier1_keywords`,
`config.load_context_words` and `config.load_tier2_themes`.  Themes are an
ordered association list, mirroring the insertion-ordered Python dict. -/
structure KeywordConfig where
  tier1 : List Str
  context : List Str
  themes : List (Str × List Str)

/-- `filter.check_relevance` line 42: `text = f"{title} {description}".lower()`. -/
def foldedText (title desc : Str) : Str := lowerStr (title ++ [' '] ++ desc)

/-- `tier1_matches = [kw for kw in tier1_keywords if kw in text]`. -/
def tier1Matches (cfg : KeywordConfig) (text : Str) : List Str :=
  cfg.tier1.filter (fun kw => hasSub kw text)

/-- `context_matches = [w for w in context_words if w in text]`. -/
def contextMatches (cfg : KeywordConfig) (text : Str) : List Str :=
  cfg.context.filter (fun w => hasSub w text)

/-- The theme loop of `check_relevance` lines 66-75: return the first theme
whose keyword list has a match in the text, with its matched keywords. -/
def firstThemeMatch : List (Str × List Str) → Str → Option (Str × List Str)
  | [], _ => none
  | (name, kws) :: rest, text =>
    let ms := kws.filter (fun kw => hasSub kw text)
    if ms = [] then firstThemeMatch rest text else some (name, ms)

/-- `all_tier2_matches` of `check_relevance` lines 79-84: all matching
tier-2 keywords, in theme order then keyword order. -/
def allTier2Matches (themes : List (Str × List Str)) (text : Str) : List Str :=
  themes.flatMap (fun p => p.2.filter (fun kw => hasSub kw text))

/-- The distinct names of themes with at least one matching keyword
(`matched_themes` built as a Python `set` in lines 80-85; here a canonical
duplicate-free list, with the set's iteration order supplied separately). -/
def matchedThemeNames (themes : List (Str × List Str)) (text : Str) : List Str :=
  ((themes.filter (fun p => p.2.any (fun kw => hasSub kw text))).map Prod.fst).eraseDups

/-- The sentinel `"(multi-theme match)"` context marker (line 93). -/
def multiThemeMarker : Str := "(multi-theme match)".toList

/-- `", ".join(...)` (line 94). -/
def joinComma (l : List Str) : Str := List.intercalate ", ".toList l

/-- The not-relevant result of `check_relevance` lines 98-104. -/
def notRelevantResult : FilterResult := ⟨false, none, [], [], none⟩

/-- `filter.check_relevance` (lines 28-104).  `σ` models the iteration
order of the Python `set` `matched_themes` used by `", ".join(matched_themes)`
on line 94: CPython string hashing is randomized per process, so the set's
iteration order is any permutation of the distinct matched theme names,
fixed by the process's hash seed.  All other iteration in the function is
over lists and insertion-ordered dicts and is therefore deterministic. -/
def check_relevance (σ : List Str → List Str) (cfg : KeywordConfig)
    (title desc : Str) : FilterResult :=
  let text := foldedText title desc
  let t1 := tier1Matches cfg text
  if t1 = [] then
    let ctx := contextMatches cfg text
    match (if ctx = [] then none else firstThemeMatch cfg.themes text) with
    | some (name, ms) => ⟨true, some 2, ms, ctx, some name⟩
    | none =>
      let mts := matchedThemeNames cfg.themes text
      if 2 ≤ mts.length then
        ⟨true, some 2, allTier2Matches cfg.themes text, [multiThemeMarker],
          some (joinComma (σ mts))⟩
      else notRelevantResult
  else ⟨true, some 1, t1, [], none⟩

/-!
### modules/fetcher.py

The content fetcher.  Network transport (`requests`), HTML parsing
(`BeautifulSoup`), PDF text extraction (`pypdf`) and the filesystem are
collaborator libraries; they are modelled as oracle function parameters.
Everything else (URL handling, scoring, thresholds, control flow, text
normalization) is translated from the source.
-/

/-- Python's `str.strip()` whitespace set, for the ASCII range. -/
def isPySpace (c : Char) : Bool :=
  c = ' ' || c = '\t' || c = '\n' || c = '\r' || c = '\x0b' || c = '\x0c'

/-- Python's `str.strip()`: drop leading and trailing whitespace. -/
def pyStrip (l : Str) : Str :=
  ((l.dropWhile isPySpace).reverse.dropWhile isPySpace).reverse

/-- `re.sub(c{thresh,}, c*m, s)` for a single character `c`: every maximal
run of at least `thresh` copies of `c` is replaced by `m` copies. -/
def subRuns (c : Char) (thresh m : Nat) : Str → Str
  | [] => []
  | a :: as =>
    if a = c then
      (if thresh ≤ (as.takeWhile (· = c)).length + 1 then List.replicate m c
       else a :: as.takeWhile (· = c)) ++ subRuns c thresh m (as.dropWhile (· = c))
    else a :: subRuns c thresh m as
termination_by l => l.length
decreasing_by
  · simp only [List.length_cons]
    exact Nat.lt_succ_of_le (List.dropWhile_sublist _).length_le
  · simp

/-- `re.sub(r"\n{3,}", "\n\n", text)` in `_process_html` (line 516). -/
def collapseNl (s : Str) : Str := subRuns '\n' 3 2 s

/-- `re.sub(r" {2,}", " ", text)` in `_process_html` (line 517). -/
def collapseSp (s : Str) : Str := subRuns ' ' 2 1 s

/-- The text normalization of `_process_html` (lines 516-520): collapse
3-or-more newlines to two, 2-or-more spaces to one, then `strip()`. -/
def normalizeText (s : Str) : Str := pyStrip (collapseSp (collapseNl s))

/-- No run of `t` or more consecutive copies of `c` occurs in the string:
the fixpoint condition of `subRuns c t m` when `m < t`. -/
def noRuns (c : Char) (t : Nat) : Str → Bool
  | [] => true
  | a :: as =>
    if a = c then
      decide ((as.takeWhile (· = c)).length + 1 < t) &&
        noRuns c t (as.dropWhile (· = c))
    else noRuns c t as
termination_by l => l.length
decreasing_by
  · simp only [List.length_cons]
    exact Nat.lt_succ_of_le (List.dropWhile_sublist _).length_le
  · simp

/-!
#### `urllib.parse.urlparse`, as used by the fetcher

The fetcher uses `urlparse(u).path`, `.scheme` and `.netloc`.  These are
translated from CPython's `urlsplit`/`urlparse`: an optional `scheme:`
(first character alphabetic, remainder in the scheme alphabet), an optional
`//netloc` ended by `/`, `?` or `#`, then the path cut at the first `#` or
`?`, with `urlparse` additionally splitting `;params` off the last segment.
-/

/-- Characters allowed in a URL scheme (`scheme_chars` of `urllib.parse`). -/
def isSchemeChar (c : Char) : Bool :=
  c.isAlpha || c.isDigit || c = '+' || c = '-' || c = '.'

/-- Split an optional `scheme:` off a URL: result `(scheme lowered, rest)`;
scheme is `[]` when the URL has none. -/
def splitScheme (url : Str) : Str × Str :=
  match url.dropWhile (· ≠ ':'), url.takeWhile (· ≠ ':') with
  | ':' :: rest, c0 :: cs =>
    if c0.isAlpha && (c0 :: cs).all isSchemeChar then (lowerStr (c0 :: cs), rest)
    else ([], url)
  | _, _ => ([], url)

/-- Split an optional `//netloc` off the remainder of a URL. -/
def splitNetloc (rest : Str) : Str × Str :=
  match rest with
  | '/' :: '/' :: r =>
    (r.takeWhile (fun c => c ≠ '/' && c ≠ '?' && c ≠ '#'),
     r.dropWhile (fun c => c ≠ '/' && c ≠ '?' && c ≠ '#'))
  | _ => ([], rest)

/-- `urllib.parse._splitparams`: drop a `;params` suffix from the last
path segment (only searched at or after the last `/`). -/
def splitParams (p : Str) : Str :=
  if ';' ∈ p then
    if '/' ∈ p then
      let lastSeg := (p.reverse.takeWhile (· ≠ '/')).reverse
      let pre := (p.reverse.dropWhile (· ≠ '/')).reverse
      pre ++ lastSeg.takeWhile (· ≠ ';')
    else p.takeWhile (· ≠ ';')
  else p

/-- `urlparse(url).path`. -/
def urlparsePath (url : Str) : Str :=
  let rest := (splitScheme url).2
  let rest2 := (splitNetloc rest).2
  splitParams ((rest2.takeWhile (· ≠ '#')).takeWhile (· ≠ '?'))

/-- `urlparse(url).scheme` (lowered). -/
def urlparseScheme (url : Str) : Str := (splitScheme url).1

/-- `urlparse(url).netloc`. -/
def urlparseNetloc (url : Str) : Str := (splitNetloc (splitScheme url).2).1

/-- `parsed.path.split("/")[-1]`: the part after the last `/`. -/
def lastSegment (p : Str) : Str := (p.reverse.takeWhile (· ≠ '/')).reverse

/-!
#### Title matching (`_get_title_match_score`, lines 396-443)
-/

/-- `\w` of Python's `re`, for the ASCII range. -/
def isWordChar (c : Char) : Bool := c.isAlpha || c.isDigit || c = '_'

/-- Helper for `wordRuns`: scan with the current (reversed) run in `acc`. -/
def wordRunsAux : Str → Str → List Str
  | acc, [] => if acc = [] then [] else [acc.reverse]
  | acc, a :: as =>
    if isWordChar a then wordRunsAux (a :: acc) as
    else (if acc = [] then [] else [acc.reverse]) ++ wordRunsAux [] as

/-- `re.findall(r"\b\w{4,}\b", s)` is the list of maximal word-character
runs of `s`; the length filter is applied by `titleWords`. -/
def wordRuns (s : Str) : List Str := wordRunsAux [] s

/-- The Dutch stop-word set of `_get_title_match_score` (lines 424-425). -/
def stopWords : List Str :=
  ["deze", "voor", "over", "naar", "door", "zijn", "wordt", "worden",
   "hebben", "heeft", "ging", "hier", "daar", "toen", "maar", "meer"].map
    String.toList

/-- `title_words` (lines 422-426): words of length at least 4 from the
lowered title, minus stop words. -/
def titleWords (articleTitle : Str) : List Str :=
  ((wordRuns (lowerStr articleTitle)).filter (fun w => 4 ≤ w.length)).filter
    (fun w => ¬ stopWords.contains w)

/-- `filename_clean` (lines 415-419): last path segment lowered, a trailing
`.pdf` removed, `-` and `_` turned into spaces. -/
def cleanedSegment (pdfUrl : Str) : Str :=
  let filename := lowerStr (lastSegment (urlparsePath pdfUrl))
  let noExt := if ".pdf".toList <:+ filename
    then filename.take (filename.length - 4) else filename
  noExt.map (fun c => if c = '-' || c = '_' then ' ' else c)

/-- The number of title words occurring as substrings of the cleaned
segment (line 432). -/
def titleMatchCount (articleTitle pdfUrl : Str) : Nat :=
  ((titleWords articleTitle).filter (fun w => hasSub w (cleanedSegment pdfUrl))).length

/-- The threshold table of `_get_title_match_score` (lines 435-443) for
`n` title words and `m` matches.  The float comparisons
`match_ratio >= 0.4` and `>= 0.2` are modelled exactly as the rational
comparisons `5*m >= 2*n` and `5*m >= n`. -/
def ratioScore (n m : Nat) : Int :=
  if 2 * n ≤ 5 * m then 40
  else if n ≤ 5 * m then 20
  else if m = 0 ∧ 3 ≤ n then -50
  else 0

/-- `_get_title_match_score` (lines 396-443). -/
def getTitleMatchScore (articleTitle pdfUrl : Str) : Int :=
  if articleTitle = [] then 0
  else
    let tws := titleWords articleTitle
    if tws = [] then 0
    else ratioScore tws.length (titleMatchCount articleTitle pdfUrl)

/-- The title-match block of `_find_pdf_download_link` (lines 305-318):
score the raw href and the lowered anchor text (the latter only when
non-empty) and keep the larger adjustment. -/
def titleAdjustment (articleTitle href textLower : Str) : Int :=
  if articleTitle = [] then 0
  else max (getTitleMatchScore articleTitle href)
           (if textLower = [] then 0 else getTitleMatchScore articleTitle textLower)

/-!
#### DOM context penalty (`_get_link_context_penalty`, lines 345-394)
-/

/-- One ancestor element of an anchor, as seen through BeautifulSoup:
`name` (None for non-tag nodes), the `class` attribute list and the `id`
attribute. -/
structure DomNode where
  name : Option Str
  classes : List Str
  id : Option Str
deriving DecidableEq

/-- The suspicious class/id markers of `_get_link_context_penalty`. -/
def suspiciousMarkers : List Str :=
  ["related", "sidebar", "footer", "widget", "aside",
   "publicaties", "gerelateerd", "more", "extra",
   "recommended", "also", "links", "nav"].map String.toList

/-- `" ".join(parent.get("class", [])).lower()`. -/
def joinedClasses (p : DomNode) : Str :=
  lowerStr (List.intercalate [' '] p.classes)

/-- The class and id checks of `_get_link_context_penalty` (lines 371-389)
on a single ancestor: 40 for a suspicious marker in the joined class
string plus 40 for one in the id (the two `break`s there only leave the
inner marker loops, so both checks run on the same ancestor). -/
def classIdPenalty (p : DomNode) : Nat :=
  (if suspiciousMarkers.any (fun s => hasSub s (joinedClasses p)) then 40 else 0) +
  (if suspiciousMarkers.any (fun s => hasSub s (lowerStr (p.id.getD []))) then 40 else 0)

/-- The ancestor loop of `_get_link_context_penalty` (lines 361-392):
the penalty accumulated at the first ancestor that contributes one
(`break` fires at the end of any iteration with a positive penalty, so
each iteration starts from zero). -/
def penaltyWalk : List DomNode → Nat
  | [] => 0
  | p :: rest =>
    match p.name with
    | none => penaltyWalk rest
    | some nm =>
      if nm = "aside".toList || nm = "footer".toList || nm = "nav".toList then 50
      else if 0 < classIdPenalty p then classIdPenalty p else penaltyWalk rest

/-- `_get_link_context_penalty` (lines 345-394): the walk's result capped
at 60 (`min(penalty, 60)`). -/
def linkContextPenalty (ancestors : List DomNode) : Nat :=
  min (penaltyWalk ancestors) 60

/-!
#### Candidate scoring and selection (`_find_pdf_download_link`)
-/

/-- One `<a href=...>` element of the landing page: the raw `href`
attribute, the text `link.get_text(strip=True)`, and the ancestor chain. -/
structure Anchor where
  href : Str
  text : Str
  ancestors : List DomNode
deriving DecidableEq

/-- One entry of `pdf_candidates` (line 328); the human-readable penalty
breakdown string, which takes no part in selection, is not modelled. -/
structure Candidate where
  score : Int
  href : Str
  text50 : Str
deriving DecidableEq

/-- The supplementary-language phrases of lines 286-288. -/
def supplementaryTexts : List Str :=
  ["gerelateerd", "meer lezen", "achtergrond", "bijlage",
   "zie ook", "lees ook", "related", "background",
   "publicatie", "bron:", "bron "].map String.toList

/-- The document-detail page path fragments of lines 257-259. -/
def docPageFragments : List Str :=
  ["/kamerstukken/", "/rapporten/", "/publicaties/", "/documenten/",
   "/beleidsnotas/", "/brieven/", "/besluiten/"].map String.toList

/-- The scoring body of `_find_pdf_download_link` (lines 223-328) for a
single anchor: `none` when the anchor is skipped (empty stripped href,
no positive signal, or an unresolvable relative href). -/
def scoreAnchor (pageUrl articleTitle : Str) (a : Anchor) : Option Candidate :=
  let href := pyStrip a.href
  if href = [] then none
  else
    let text := lowerStr a.text
    let hrefLower := lowerStr href
    let boosts : Int :=
      (if ".pdf".toList <:+ hrefLower then 100 else 0) +
      (if hasSub "open.overheid.nl".toList hrefLower &&
          hasSub "/file".toList hrefLower then 90 else 0) +
      (if hasSub "officielebekendmakingen.nl".toList hrefLower then 80 else 0) +
      (if hasSub ".pdf".toList hrefLower then 70 else 0) +
      (if docPageFragments.any (fun f => hasSub f (lowerStr pageUrl)) then 50 else 0) +
      (if hasSub "download".toList text &&
          (hasSub "pdf".toList text || hasSub "rapport".toList text ||
           hasSub "advies".toList text) then 50 else 0) +
      (if hasSub "(pdf".toList text then 40 else 0) +
      (if hasSub "volledige".toList text &&
          (hasSub "advies".toList text || hasSub "rapport".toList text)
       then 30 else 0)
    if boosts = 0 then none
    else
      let afterPenalties := boosts - (linkContextPenalty a.ancestors : Int) -
        (if supplementaryTexts.any (fun s => hasSub s text) then 40 else 0) -
        (if hasSub "rapport".toList text || hasSub "advies".toList text ||
            hasSub "publicatie".toList text then 20 else 0)
      let score := afterPenalties + titleAdjustment articleTitle href text
      if "/".toList <+: href then
        let baseUrl := urlparseScheme pageUrl ++ "://".toList ++ urlparseNetloc pageUrl
        some ⟨score, baseUrl ++ href, text.take 50⟩
      else if ¬ ("http".toList <+: href) then none
      else some ⟨score, href, text.take 50⟩

/-- `MIN_SCORE_THRESHOLD` (line 215). -/
def minScoreThreshold : Int := 120

/-- The selection tail of `_find_pdf_download_link` (lines 330-343):
stable-sort the candidates by score descending (Python `list.sort` with
`key=lambda x: x[0], reverse=True`), accept the best only at or above the
threshold. -/
def selectPdfLink (cands : List Candidate) : Option Str :=
  match cands.mergeSort (fun a b => b.score ≤ a.score) with
  | [] => none
  | best :: _ => if minScoreThreshold ≤ best.score then some best.href else none

/-- `_find_pdf_download_link` (lines 196-343) over the page's anchors. -/
def findPdfDownloadLink (pageUrl articleTitle : Str) (anchors : List Anchor) :
    Option Str :=
  selectPdfLink (anchors.filterMap (scoreAnchor pageUrl articleTitle))

/-!
#### Fetching and processing (`fetch`, `_process_pdf`, `_process_html`,
`_download_pdf_from_url`, `_process_html_with_pdf_check`)
-/

/-- The result dict of the fetcher (`FetchResult` TypedDict, lines 22-27). -/
structure FetchResult where
  text : Str
  type : Str
  file_path : Option Str
deriving DecidableEq

/-- An HTTP response as the fetcher consumes it: the raw `Content-Type`
header, the body bytes (`response.content`) and the decoded text
(`response.text`). -/
structure HttpResponse where
  contentType : Str
  body : List Nat
  textBody : Str

/-- The oracles standing for the fetcher's collaborator libraries:
`net` is `requests.get` (`none` for any `requests` exception), `extractPdf`
is saving plus `pypdf` page extraction (`none` when `_process_pdf`'s `try`
block raises; otherwise the per-page texts), `extractHtml` is
BeautifulSoup's clutter removal and `get_text` in `_process_html`,
`anchorsOf` is BeautifulSoup's anchor enumeration, and `pdfPath` the
timestamped target path built by `_generate_pdf_filename`. -/
structure FetchOracles where
  net : Str → Option HttpResponse
  extractPdf : List Nat → Option (List Str)
  extractHtml : Str → Str
  anchorsOf : Str → List Anchor
  pdfPath : Str

/-- `"\n\n".join(text_parts)` with falsy pages dropped (lines 130-136). -/
def joinPages (pages : List Str) : Str :=
  List.intercalate ['\n', '\n'] (pages.filter (fun p => p ≠ []))

/-- `_process_pdf` (lines 98-149): save the file, extract the text, return
a `pdf` result carrying the saved path; `none` when the library raises. -/
def processPdf (O : FetchOracles) (content : List Nat) : Option FetchResult :=
  match O.extractPdf content with
  | none => none
  | some pages => some ⟨joinPages pages, "pdf".toList, some O.pdfPath⟩

/-- `_process_html` (lines 481-527): extract the page text and normalize
its whitespace; an `html` result never carries a file path. -/
def processHtml (O : FetchOracles) (htmlContent : Str) : Option FetchResult :=
  some ⟨normalizeText (O.extractHtml htmlContent), "html".toList, none⟩

/-- The PDF magic bytes `b"%PDF"`. -/
def pdfMagic : List Nat := [37, 80, 68, 70]

/-- `_download_pdf_from_url` (lines 445-479): fetch the candidate URL and
process it as a PDF only when the payload is confirmed (content type or
byte signature); `none` on transport failure or a non-PDF payload. -/
def downloadPdfFromUrl (O : FetchOracles) (pdfUrl : Str) : Option FetchResult :=
  match O.net pdfUrl with
  | none => none
  | some resp =>
    if hasSub "application/pdf".toList (lowerStr resp.contentType) ||
       resp.body.take 4 = pdfMagic then
      processPdf O resp.body
    else none

/-- `_process_html_with_pdf_check` (lines 151-194): look for a PDF link;
if one is selected, try to download it; on any failure fall back to
processing the page itself as HTML. -/
def processHtmlWithPdfCheck (O : FetchOracles) (htmlContent pageUrl title : Str) :
    Option FetchResult :=
  match findPdfDownloadLink pageUrl title (O.anchorsOf htmlContent) with
  | some pdfUrl =>
    match downloadPdfFromUrl O pdfUrl with
    | some r => some r
    | none => processHtml O htmlContent
  | none => processHtml O htmlContent

/-- `_is_pdf` (lines 84-96); `content_type` arrives already lowered. -/
def isPdfPayload (url contentType : Str) : Bool :=
  hasSub "application/pdf".toList contentType ||
  ".pdf".toList <:+ lowerStr (urlparsePath url)

/-- `ContentFetcher.fetch` (lines 46-82): `none` on any transport error,
otherwise PDF or HTML processing by content detection. -/
def fetchContent (O : FetchOracles) (url title : Str) : Option FetchResult :=
  match O.net url with
  | none => none
  | some resp =>
    let contentType := lowerStr resp.contentType
    if isPdfPayload url contentType then processPdf O resp.body
    else processHtmlWithPdfCheck O resp.textBody url title

/-!
### Concrete sample data for evaluating the definitions
-/

/-- A small keyword configuration in the shape produced by `config.py`:
one direct term, one context word, two themes with one keyword each. -/
def demoCfg : KeywordConfig :=
  ⟨["deltaprogramma".toList],
   ["klimaat".toList],
   [("water".toList, ["dijk".toList]), ("bodem".toList, ["klei".toList])]⟩

/-- The per-ancestor contribution of the penalty walk, stated for the
amended claim C5: `none`-named nodes contribute nothing, a peripheral tag
contributes 50, and otherwise a suspicious marker in the class list
contributes 40 and one in the id another 40. -/
def nodePenalty (p : DomNode) : Nat :=
  match p.name with
  | none => 0
  | some nm =>
    if nm = "aside".toList || nm = "footer".toList || nm = "nav".toList then 50
    else classIdPenalty p

/-- A `div` ancestor whose class list and id both carry a supplementary
marker (`sidebar` and `related`). -/
def bothMarkersNode : DomNode :=
  ⟨some "div".toList, ["sidebar".toList], some "related".toList⟩

/-- A four-word article title sharing no word with `mismatchHref`. -/
def mismatchTitle : Str := "klimaat adaptatie strategie nederland".toList

/-- A candidate URL whose filename matches none of the title's words. -/
def mismatchHref : Str := "https://voorbeeld.nl/documenten/overig.pdf".toList

/-- Oracles for a resolution pass: transport always fails, PDF extraction
always fails, HTML text extraction is the identity, and the page parses to
the given anchors. -/
def demoOracles (anchors : List Anchor) : FetchOracles :=
  ⟨fun _ => none, fun _ => none, fun s => s, fun _ => anchors,
   "pdfs/demo.pdf".toList⟩

/-- An anchor whose href mentions `.pdf` without ending in it: it scores
70, below the acceptance threshold of 120. -/
def lowAnchor : Anchor :=
  ⟨"https://voorbeeld.nl/download?format=.pdf&taal=nl".toList, [], []⟩

/-- An anchor whose href ends in `.pdf` (+100, and +70 for containing it):
it scores 170, above the acceptance threshold. -/
def highAnchor : Anchor := ⟨"https://voorbeeld.nl/rapport.pdf".toList, [], []⟩

/-- A landing-page URL without document-detail path fragments. -/
def newsPageUrl : Str := "https://voorbeeld.nl/nieuws/artikel".toList

/-- Oracles whose transport returns a PDF payload (content type and magic
bytes) and whose PDF extraction yields one page of text. -/
def pdfOracles : FetchOracles :=
  ⟨fun _ => some ⟨"application/pdf".toList, [37, 80, 68, 70], []⟩,
   fun _ => some ["inhoud".toList],
   fun s => s, fun _ => [], "pdfs/demo.pdf".toList⟩

/-!
## Theorems

### The relevance filter
-/

theorem hasSub_iff {needle hay : Str} : hasSub needle hay = true ↔ needle <:+: hay :=
  decide_eq_true_iff

theorem tier1Matches_ne_nil {cfg : KeywordConfig} {text : Str}
    (h : ∃ kw ∈ cfg.tier1, kw <:+: text) : tier1Matches cfg text ≠ [] := by
  obtain ⟨kw, hmem, hinf⟩ := h
  simp only [tier1Matches, ne_eq, List.filter_eq_nil_iff, not_forall]
  exact ⟨kw, hmem, by simp [hasSub_iff.2 hinf]⟩

/-- Claim C1: if the case-folded concatenation of title and description
contains at least one configured direct (tier-1) term as a substring,
`check_relevance` returns a relevant tier-1 verdict whose matched keywords
are exactly the matching direct terms, in keyword-list iteration order,
with no context and no theme — whatever else the text contains. -/
theorem tier1_direct_hit (σ : List Str → List Str) (cfg : KeywordConfig)
    (title desc : Str)
    (h : ∃ kw ∈ cfg.tier1, kw <:+: foldedText title desc) :
    check_relevance σ cfg title desc =
      ⟨true, some 1, cfg.tier1.filter (fun kw => hasSub kw (foldedText title desc)),
        [], none⟩ := by
  rw [check_relevance]
  simp only [if_neg (tier1Matches_ne_nil h)]
  rfl

/-- Witness for C1, the spec's own scenario: a title containing the direct
term `deltaprogramma` is tier-1 relevant. -/
theorem tier1_direct_hit_witness :
    check_relevance id demoCfg "Deltaprogramma 2026: Waterveiligheid".toList [] =
      ⟨true, some 1,
        demoCfg.tier1.filter
          (fun kw => hasSub kw (foldedText "Deltaprogramma 2026: Waterveiligheid".toList [])),
        [], none⟩ :=
  tier1_direct_hit id demoCfg _ _ ⟨"deltaprogramma".toList, by decide, by decide⟩

/-- Claim C9: the `FilterResult` returned by `check_relevance` is
internally consistent: `is_relevant` holds exactly when the tier is 1 or 2;
a not-relevant result has empty matched lists and no theme; a tier-1 result
has no context matches and no theme. -/
theorem filter_result_consistent (σ : List Str → List Str) (cfg : KeywordConfig)
    (title desc : Str) :
    ((check_relevance σ cfg title desc).is_relevant = true ↔
      ((check_relevance σ cfg title desc).tier = some 1 ∨
       (check_relevance σ cfg title desc).tier = some 2)) ∧
    ((check_relevance σ cfg title desc).is_relevant = false →
      (check_relevance σ cfg title desc).matched_keywords = [] ∧
      (check_relevance σ cfg title desc).matched_context = [] ∧
      (check_relevance σ cfg title desc).theme = none) ∧
    ((check_relevance σ cfg title desc).tier = some 1 →
      (check_relevance σ cfg title desc).matched_context = [] ∧
      (check_relevance σ cfg title desc).theme = none) := by
  rw [check_relevance]
  dsimp only
  split
  · split
    · simp
    · split <;> simp [notRelevantResult]
  · simp

/-- Witness for C9 at a concrete not-relevant input: the spec's
"Nieuwe woningbouw" scenario yields a not-relevant verdict with empty
matched lists and no theme. -/
theorem filter_result_consistent_witness :
    (check_relevance id demoCfg "Nieuwe woningbouw in gemeente Almere".toList
        "Er worden 500 nieuwe woningen gebouwd.".toList).is_relevant = false ∧
    (check_relevance id demoCfg "Nieuwe woningbouw in gemeente Almere".toList
        "Er worden 500 nieuwe woningen gebouwd.".toList).matched_keywords = [] ∧
    (check_relevance id demoCfg "Nieuwe woningbouw in gemeente Almere".toList
        "Er worden 500 nieuwe woningen gebouwd.".toList).matched_context = [] ∧
    (check_relevance id demoCfg "Nieuwe woningbouw in gemeente Almere".toList
        "Er worden 500 nieuwe woningen gebouwd.".toList).theme = none :=
  ⟨by decide,
   (filter_result_consistent id demoCfg _ _).2.1 (by decide)⟩

theorem contextMatches_eq_nil {cfg : KeywordConfig} {text : Str}
    (h : ∀ w ∈ cfg.context, ¬ w <:+: text) : contextMatches cfg text = [] := by
  simp only [contextMatches, List.filter_eq_nil_iff]
  intro w hw
  simp [hasSub, h w hw]

theorem tier1Matches_eq_nil {cfg : KeywordConfig} {text : Str}
    (h : ∀ kw ∈ cfg.tier1, ¬ kw <:+: text) : tier1Matches cfg text = [] := by
  simp only [tier1Matches, List.filter_eq_nil_iff]
  intro kw hkw
  simp [hasSub, h kw hkw]

/-- Claim C2: with no direct-term match and no context-term match,
`check_relevance` returns a relevant tier-2 verdict exactly when keywords
from two or more distinct themes match: the matched keywords are all
matched tier-2 terms in theme-then-keyword order, the theme is the
comma-join of the distinct matching theme names (in the `matched_themes`
set's iteration order `σ`), and the context is the multi-theme sentinel;
with at most one matching theme the verdict is not relevant. -/
theorem cross_theme_corroboration (σ : List Str → List Str) (cfg : KeywordConfig)
    (title desc : Str)
    (h1 : ∀ kw ∈ cfg.tier1, ¬ kw <:+: foldedText title desc)
    (h2 : ∀ w ∈ cfg.context, ¬ w <:+: foldedText title desc) :
    (2 ≤ (matchedThemeNames cfg.themes (foldedText title desc)).length →
      check_relevance σ cfg title desc =
        ⟨true, some 2, allTier2Matches cfg.themes (foldedText title desc),
          [multiThemeMarker],
          some (joinComma (σ (matchedThemeNames cfg.themes (foldedText title desc))))⟩) ∧
    ((matchedThemeNames cfg.themes (foldedText title desc)).length ≤ 1 →
      check_relevance σ cfg title desc = notRelevantResult) := by
  rw [check_relevance]
  simp only [tier1Matches_eq_nil h1, contextMatches_eq_nil h2, if_pos rfl]
  constructor
  · intro hlen
    simp [if_pos hlen]
  · intro hlen
    have : ¬ 2 ≤ (matchedThemeNames cfg.themes (foldedText title desc)).length := by
      omega
    simp [if_neg this]

/-- Witness for C2: a text matching the `water` theme (`dijk`) and the
`bodem` theme (`klei`) with no direct term and no context word is tier-2
relevant through cross-theme corroboration. -/
theorem cross_theme_corroboration_witness :
    check_relevance id demoCfg "dijk en klei".toList [] =
      ⟨true, some 2, allTier2Matches demoCfg.themes (foldedText "dijk en klei".toList []),
        [multiThemeMarker],
        some (joinComma (id (matchedThemeNames demoCfg.themes
          (foldedText "dijk en klei".toList []))))⟩ :=
  (cross_theme_corroboration id demoCfg _ _ (by decide) (by decide)).1 (by decide)

/-- Counterexample to claim C7 as stated: the comma-joined theme string of
a cross-theme match follows the iteration order of the Python set
`matched_themes`, which depends on the per-process string hash seed.  Both
the identity and reversal are orders of the same two-element set (each is a
permutation of the matched theme names), yet they produce different
verdict bytes (`"water, bodem"` vs `"bodem, water"`) on the same input and
configuration. -/
theorem classify_not_run_independent :
    (∀ l : List Str, (List.reverse l).Perm l) ∧
    check_relevance id demoCfg "dijk en klei".toList [] ≠
      check_relevance List.reverse demoCfg "dijk en klei".toList [] :=
  ⟨fun l => List.reverse_perm l, by decide⟩

/-- Claim C7 (amended): re-running classification on identical inputs and
configuration yields identical verdicts in every field except possibly the
theme string of a cross-theme match, whose comma-joined theme names may
appear in a different set-iteration order (a permutation); candidate
scoring and ordering contain no analogous order-dependent state. -/
theorem classify_deterministic_up_to_theme_order (σ₁ σ₂ : List Str → List Str)
    (cfg : KeywordConfig) (title desc : Str)
    (h₁ : ∀ l : List Str, (σ₁ l).Perm l) (h₂ : ∀ l : List Str, (σ₂ l).Perm l) :
    (check_relevance σ₁ cfg title desc).is_relevant =
      (check_relevance σ₂ cfg title desc).is_relevant ∧
    (check_relevance σ₁ cfg title desc).tier =
      (check_relevance σ₂ cfg title desc).tier ∧
    (check_relevance σ₁ cfg title desc).matched_keywords =
      (check_relevance σ₂ cfg title desc).matched_keywords ∧
    (check_relevance σ₁ cfg title desc).matched_context =
      (check_relevance σ₂ cfg title desc).matched_context ∧
    ((check_relevance σ₁ cfg title desc).theme =
       (check_relevance σ₂ cfg title desc).theme ∨
     ∃ l₁ l₂ : List Str, l₁.Perm l₂ ∧
       (check_relevance σ₁ cfg title desc).theme = some (joinComma l₁) ∧
       (check_relevance σ₂ cfg title desc).theme = some (joinComma l₂)) := by
  rw [check_relevance, check_relevance]
  dsimp only
  split
  · split
    · exact ⟨rfl, rfl, rfl, rfl, Or.inl rfl⟩
    · split
      · refine ⟨rfl, rfl, rfl, rfl, Or.inr ?_⟩
        exact ⟨_, _, (h₁ _).trans (h₂ _).symm, rfl, rfl⟩
      · exact ⟨rfl, rfl, rfl, rfl, Or.inl rfl⟩
  · exact ⟨rfl, rfl, rfl, rfl, Or.inl rfl⟩

/-- Witness for the amended C7 at a concrete cross-theme input and two
concrete set-iteration orders. -/
theorem classify_deterministic_up_to_theme_order_witness :
    (check_relevance id demoCfg "dijk en klei".toList []).is_relevant =
      (check_relevance List.reverse demoCfg "dijk en klei".toList []).is_relevant ∧
    (check_relevance id demoCfg "dijk en klei".toList []).tier =
      (check_relevance List.reverse demoCfg "dijk en klei".toList []).tier ∧
    (check_relevance id demoCfg "dijk en klei".toList []).matched_keywords =
      (check_relevance List.reverse demoCfg "dijk en klei".toList []).matched_keywords ∧
    (check_relevance id demoCfg "dijk en klei".toList []).matched_context =
      (check_relevance List.reverse demoCfg "dijk en klei".toList []).matched_context ∧
    ((check_relevance id demoCfg "dijk en klei".toList []).theme =
       (check_relevance List.reverse demoCfg "dijk en klei".toList []).theme ∨
     ∃ l₁ l₂ : List Str, l₁.Perm l₂ ∧
       (check_relevance id demoCfg "dijk en klei".toList []).theme = some (joinComma l₁) ∧
       (check_relevance List.reverse demoCfg "dijk en klei".toList []).theme =
         some (joinComma l₂)) :=
  classify_deterministic_up_to_theme_order id List.reverse demoCfg _ _
    (fun l => List.Perm.refl l) (fun l => List.reverse_perm l)

/-!
### The link-candidate scorer
-/

/-- Counterexample to claim C5 as stated: an ancestor that is not a
peripheral tag but whose class list and id both contain a supplementary
marker contributes 40 + 40 = 80, capped to 60 — not the claimed flat 40. -/
theorem context_penalty_not_flat_forty :
    bothMarkersNode.name = some "div".toList ∧
    (suspiciousMarkers.any (fun s => hasSub s (joinedClasses bothMarkersNode))) = true ∧
    (suspiciousMarkers.any
      (fun s => hasSub s (lowerStr (bothMarkersNode.id.getD [])))) = true ∧
    linkContextPenalty [bothMarkersNode] = 60 ∧ (60 : Nat) ≠ 40 := by
  decide

theorem penaltyWalk_cons (p : DomNode) (rest : List DomNode) :
    penaltyWalk (p :: rest) =
      if 0 < nodePenalty p then nodePenalty p else penaltyWalk rest := by
  obtain ⟨pname, pcls, pid⟩ := p
  rcases pname with _ | nm
  · simp [penaltyWalk, nodePenalty]
  · simp only [penaltyWalk, nodePenalty]
    split_ifs <;> omega

/-- Claim C5 (amended): the DOM-context penalty is that of the first
ancestor contributing a non-zero penalty — a flat 50 for a peripheral
`nav`/`footer`/`aside` tag, else 40 for a marker in the class list plus
another 40 for a marker in the id — and the total is capped at 60. -/
theorem context_penalty_first_match (ancestors : List DomNode) :
    linkContextPenalty ancestors =
      min ((ancestors.find? (fun p => 0 < nodePenalty p)).elim 0 nodePenalty) 60 := by
  rw [linkContextPenalty]
  congr 1
  induction ancestors with
  | nil => rfl
  | cons p rest ih =>
    rw [penaltyWalk_cons]
    by_cases hz : 0 < nodePenalty p
    · rw [if_pos hz, List.find?_cons_of_pos _ (by simp [hz]), Option.elim_some]
    · rw [if_neg hz, List.find?_cons_of_neg _ (by simp [hz]), ih]

theorem titleWords_nil : titleWords [] = [] := rfl

theorem ratioScore_mono {n m₁ m₂ : Nat} (h : m₁ ≤ m₂) :
    ratioScore n m₁ ≤ ratioScore n m₂ := by
  rw [ratioScore, ratioScore]
  split_ifs <;> omega

theorem max_ratioScore (n m₁ m₂ : Nat) :
    max (ratioScore n m₁) (ratioScore n m₂) = ratioScore n (max m₁ m₂) := by
  rcases Nat.le_total m₁ m₂ with h | h
  · rw [Nat.max_eq_right h, max_eq_right (ratioScore_mono h)]
  · rw [Nat.max_eq_left h, max_eq_left (ratioScore_mono h)]

/-- Counterexample to claim C4 as stated: a four-word title, a URL whose
cleaned filename matches none of the title words, and an *empty* anchor
text.  The claim's reading — zero matches with at least 3 title words
available contributes exactly −50 — fails: the code scores an empty anchor
text as a flat 0, so the combined adjustment is `max (-50) 0 = 0`. -/
theorem title_adjustment_empty_text_counterexample :
    titleMatchCount mismatchTitle mismatchHref = 0 ∧
    3 ≤ (titleWords mismatchTitle).length ∧
    titleAdjustment mismatchTitle mismatchHref [] = 0 ∧ (0 : Int) ≠ -50 := by
  decide

/-- Claim C4 (amended): for a non-empty anchor text (and a title with at
least one meaningful word), the title-match adjustment is the threshold
table applied to the best of the two per-side match counts — equivalently
the better of the two match ratios: +40 at ratio ≥ 0.4, +20 at ratio ≥
0.2, −50 at zero matches with at least 3 title words, else 0.  Each side's
ratio is computed over its last URL-path segment; an empty anchor text
instead contributes a flat 0 to the `max`. -/
theorem title_adjustment_best_ratio (title href text : Str)
    (hw : titleWords title ≠ []) (ht : text ≠ []) :
    titleAdjustment title href text =
      ratioScore (titleWords title).length
        (max (titleMatchCount title href) (titleMatchCount title text)) := by
  have htitle : title ≠ [] := by
    intro e
    exact hw (e ▸ titleWords_nil)
  rw [titleAdjustment, if_neg htitle, if_neg ht]
  rw [getTitleMatchScore, if_neg htitle]
  rw [getTitleMatchScore, if_neg htitle]
  simp only [hw, if_false]
  exact max_ratioScore _ _ _

/-- Witness for the amended C4: an anchor text sharing 3 of the 4 title
words yields the ratio-0.75 adjustment `+40` even though the URL side is a
total mismatch. -/
theorem title_adjustment_best_ratio_witness :
    titleAdjustment mismatchTitle mismatchHref
        "klimaat adaptatie strategie".toList =
      ratioScore (titleWords mismatchTitle).length
        (max (titleMatchCount mismatchTitle mismatchHref)
             (titleMatchCount mismatchTitle "klimaat adaptatie strategie".toList)) :=
  title_adjustment_best_ratio _ _ _ (by decide) (by decide)

/-!
### The document resolver
-/

theorem selectPdfLink_eq_some {cands : List Candidate} {u : Str}
    (h : selectPdfLink cands = some u) :
    ∃ c ∈ cands, c.href = u ∧ minScoreThreshold ≤ c.score ∧
      ∀ c' ∈ cands, c'.score ≤ c.score := by
  rw [selectPdfLink] at h
  rcases hs : cands.mergeSort (fun a b => b.score ≤ a.score) with _ | ⟨best, rest⟩
  · rw [hs] at h; cases h
  · rw [hs] at h
    dsimp only at h
    by_cases hth : minScoreThreshold ≤ best.score
    · rw [if_pos hth] at h
      have hbu : best.href = u := by injection h
      have hbest : best ∈ cands := by
        have : best ∈ cands.mergeSort (fun a b => b.score ≤ a.score) := by
          rw [hs]; exact List.mem_cons_self _ _
        exact List.mem_mergeSort.mp this
      refine ⟨best, hbest, hbu, hth, ?_⟩
      intro c' hc'
      have hsorted : (cands.mergeSort (fun a b => b.score ≤ a.score)).Pairwise
          (fun a b => (b.score ≤ a.score : Bool) = true) := by
        refine List.sorted_mergeSort ?_ ?_ cands
        · intro a b c hab hbc
          simp only [decide_eq_true_eq] at *
          omega
        · intro a b
          rcases Int.le_total b.score a.score with h' | h' <;> simp [h']
      rw [hs] at hsorted
      have hmem : c' ∈ cands.mergeSort (fun a b => b.score ≤ a.score) :=
        List.mem_mergeSort.mpr hc'
      rw [hs] at hmem
      rcases List.mem_cons.mp hmem with rfl | hrest
      · exact le_refl _
      · have := (List.pairwise_cons.mp hsorted).1 c' hrest
        simpa using this
    · rw [if_neg hth] at h; cases h

theorem selectPdfLink_eq_none {cands : List Candidate}
    (h : ∀ c ∈ cands, c.score < minScoreThreshold) :
    selectPdfLink cands = none := by
  rw [selectPdfLink]
  rcases hs : cands.mergeSort (fun a b => b.score ≤ a.score) with _ | ⟨best, rest⟩
  · rfl
  · dsimp only
    have hb : best ∈ cands := by
      have : best ∈ cands.mergeSort (fun a b => b.score ≤ a.score) := by
        rw [hs]; exact List.mem_cons_self _ _
      exact List.mem_mergeSort.mp this
    rw [if_neg (not_le.mpr (h best hb))]

/-- Claim C3: a candidate link is followed only when the top-ranked
candidate's total score reaches the fixed threshold of 120; when every
candidate scores below 120 no candidate is selected and the resolver
produces the source-page (HTML) outcome from the original page text,
regardless of what the sub-fetch collaborator would have returned. -/
theorem resolver_threshold (O : FetchOracles) (htmlContent pageUrl title : Str) :
    (∀ u, findPdfDownloadLink pageUrl title (O.anchorsOf htmlContent) = some u →
      ∃ c ∈ (O.anchorsOf htmlContent).filterMap (scoreAnchor pageUrl title),
        c.href = u ∧ minScoreThreshold ≤ c.score ∧
        ∀ c' ∈ (O.anchorsOf htmlContent).filterMap (scoreAnchor pageUrl title),
          c'.score ≤ c.score) ∧
    ((∀ c ∈ (O.anchorsOf htmlContent).filterMap (scoreAnchor pageUrl title),
        c.score < minScoreThreshold) →
      findPdfDownloadLink pageUrl title (O.anchorsOf htmlContent) = none ∧
      processHtmlWithPdfCheck O htmlContent pageUrl title =
        processHtml O htmlContent) := by
  constructor
  · intro u hu
    rw [findPdfDownloadLink] at hu
    exact selectPdfLink_eq_some hu
  · intro hbelow
    have hnone : findPdfDownloadLink pageUrl title (O.anchorsOf htmlContent) = none := by
      rw [findPdfDownloadLink]
      exact selectPdfLink_eq_none hbelow
    refine ⟨hnone, ?_⟩
    rw [processHtmlWithPdfCheck, hnone]

/-- Witness for C3: a single candidate scoring 70 (an href merely
containing `.pdf`) stays below the threshold, so nothing is selected and
the resolver yields the source-page outcome. -/
theorem resolver_threshold_witness :
    findPdfDownloadLink newsPageUrl []
      ((demoOracles [lowAnchor]).anchorsOf []) = none ∧
    processHtmlWithPdfCheck (demoOracles [lowAnchor]) [] newsPageUrl [] =
      processHtml (demoOracles [lowAnchor]) [] :=
  (resolver_threshold (demoOracles [lowAnchor]) [] newsPageUrl []).2 (by decide)

/-- Claim C6: once a candidate link is selected, a failing sub-fetch or a
payload not confirmed as a PDF (`downloadPdfFromUrl` returning `none`,
which covers transport failure, a non-PDF content type without the magic
bytes, and extraction failure) never fails the resolution: the resolver
returns the source-page outcome built from the original page text. -/
theorem subfetch_failure_falls_back (O : FetchOracles)
    (htmlContent pageUrl title url : Str)
    (hsel : findPdfDownloadLink pageUrl title (O.anchorsOf htmlContent) = some url)
    (hdl : downloadPdfFromUrl O url = none) :
    processHtmlWithPdfCheck O htmlContent pageUrl title =
      processHtml O htmlContent ∧
    (processHtmlWithPdfCheck O htmlContent pageUrl title).isSome = true := by
  have hres : processHtmlWithPdfCheck O htmlContent pageUrl title =
      processHtml O htmlContent := by
    rw [processHtmlWithPdfCheck, hsel]
    dsimp only
    rw [hdl]
  exact ⟨hres, by rw [hres, processHtml]; rfl⟩

/-- Witness for C6: a candidate scoring 170 is selected, the transport
fails (`net` returns `none`), and the resolver still produces the
source-page outcome. -/
theorem subfetch_failure_falls_back_witness :
    processHtmlWithPdfCheck (demoOracles [highAnchor]) [] newsPageUrl [] =
      processHtml (demoOracles [highAnchor]) [] ∧
    (processHtmlWithPdfCheck (demoOracles [highAnchor]) [] newsPageUrl []).isSome =
      true :=
  subfetch_failure_falls_back (demoOracles [highAnchor]) [] newsPageUrl []
    "https://voorbeeld.nl/rapport.pdf".toList
    (by
      show selectPdfLink ([highAnchor].filterMap (scoreAnchor newsPageUrl [])) =
        some "https://voorbeeld.nl/rapport.pdf".toList
      rw [show [highAnchor].filterMap (scoreAnchor newsPageUrl []) =
        [⟨170, "https://voorbeeld.nl/rapport.pdf".toList, []⟩] from by decide]
      rw [selectPdfLink, List.mergeSort_singleton]
      decide)
    rfl

theorem processPdf_shape {O : FetchOracles} {content : List Nat} {r : FetchResult}
    (h : processPdf O content = some r) :
    r.type = "pdf".toList ∧ r.file_path = some O.pdfPath := by
  rw [processPdf] at h
  split at h
  · cases h
  · cases h; exact ⟨rfl, rfl⟩

theorem downloadPdf_shape {O : FetchOracles} {u : Str} {r : FetchResult}
    (h : downloadPdfFromUrl O u = some r) :
    r.type = "pdf".toList ∧ r.file_path = some O.pdfPath := by
  rw [downloadPdfFromUrl] at h
  split at h
  · cases h
  · split at h
    · exact processPdf_shape h
    · cases h

theorem processHtml_shape {O : FetchOracles} {html : Str} {r : FetchResult}
    (h : processHtml O html = some r) :
    r.type = "html".toList ∧ r.file_path = none := by
  rw [processHtml] at h
  cases h
  exact ⟨rfl, rfl⟩

/-- Claim C10: whenever `fetch` returns a result, its `type` is exactly
`"pdf"` or `"html"`, and its `file_path` is present if and only if the
type is `"pdf"`: every PDF outcome carries the saved local path, every
HTML outcome carries `none`. -/
theorem fetch_result_type_invariant (O : FetchOracles) (url title : Str)
    (r : FetchResult) (h : fetchContent O url title = some r) :
    (r.type = "pdf".toList ∨ r.type = "html".toList) ∧
    (r.file_path.isSome = true ↔ r.type = "pdf".toList) := by
  have hshape : (r.type = "pdf".toList ∧ r.file_path = some O.pdfPath) ∨
      (r.type = "html".toList ∧ r.file_path = none) := by
    rw [fetchContent] at h
    split at h
    · cases h
    · dsimp only at h
      split at h
      · exact Or.inl (processPdf_shape h)
      · rw [processHtmlWithPdfCheck] at h
        split at h
        · split at h
          · rename_i hdl
            cases h
            exact Or.inl (downloadPdf_shape hdl)
          · exact Or.inr (processHtml_shape h)
        · exact Or.inr (processHtml_shape h)
  rcases hshape with ⟨ht, hp⟩ | ⟨ht, hp⟩
  · refine ⟨Or.inl ht, ?_⟩
    rw [ht, hp]
    simp
  · refine ⟨Or.inr ht, ?_⟩
    rw [ht, hp]
    simp

/-- Witness for C10: a transport response with a PDF content type yields a
`pdf` result carrying the saved file path. -/
theorem fetch_result_type_invariant_witness :
    ((⟨"inhoud".toList, "pdf".toList, some "pdfs/demo.pdf".toList⟩ :
        FetchResult).type = "pdf".toList ∨
     (⟨"inhoud".toList, "pdf".toList, some "pdfs/demo.pdf".toList⟩ :
        FetchResult).type = "html".toList) ∧
    ((⟨"inhoud".toList, "pdf".toList, some "pdfs/demo.pdf".toList⟩ :
        FetchResult).file_path.isSome = true ↔
     (⟨"inhoud".toList, "pdf".toList, some "pdfs/demo.pdf".toList⟩ :
        FetchResult).type = "pdf".toList) :=
  fetch_result_type_invariant pdfOracles "https://voorbeeld.nl/nota.pdf".toList []
    ⟨"inhoud".toList, "pdf".toList, some "pdfs/demo.pdf".toList⟩ (by decide)

/-!
### Text normalization (claim C8)

`subRuns c t m` (with `1 ≤ m < t`) replaces every maximal run of at least
`t` copies of `c` by `m` copies.  The development below shows the result
never contains a run of `t` copies (`noRuns`), that `subRuns` is the
identity on such strings, that collapsing one character's runs preserves
the absence of another character's runs, that `noRuns` is closed under
infixes, and that `pyStrip` is idempotent and yields an infix — together
giving idempotence of the whole normalization.
-/

theorem subRuns_nil (c : Char) (t m : Nat) : subRuns c t m [] = [] := by
  rw [subRuns]

theorem subRuns_cons_ne {a c : Char} (h : ¬ a = c) (t m : Nat) (as : Str) :
    subRuns c t m (a :: as) = a :: subRuns c t m as := by
  rw [subRuns]
  simp [h]

theorem subRuns_cons_eq (c : Char) (t m : Nat) (as : Str) :
    subRuns c t m (c :: as) =
      (if t ≤ (as.takeWhile (· = c)).length + 1 then List.replicate m c
       else c :: as.takeWhile (· = c)) ++ subRuns c t m (as.dropWhile (· = c)) := by
  rw [subRuns]
  simp

theorem noRuns_nil (c : Char) (t : Nat) : noRuns c t [] = true := by
  rw [noRuns]

theorem noRuns_cons_ne {a c : Char} (h : ¬ a = c) (t : Nat) (as : Str) :
    noRuns c t (a :: as) = noRuns c t as := by
  rw [noRuns]
  simp [h]

theorem noRuns_cons_eq (c : Char) (t : Nat) (as : Str) :
    noRuns c t (c :: as) =
      (decide ((as.takeWhile (· = c)).length + 1 < t) &&
        noRuns c t (as.dropWhile (· = c))) := by
  rw [noRuns]
  simp

theorem takeWhile_eq_c_replicate (c : Char) (as : Str) :
    as.takeWhile (· = c) = List.replicate (as.takeWhile (· = c)).length c :=
  List.eq_replicate_length.mpr
    (fun _ hb => by simpa using List.mem_takeWhile_imp hb)

theorem head?_dropWhile_ne (p : Char → Bool) (as : Str) {d : Char}
    (h : (as.dropWhile p).head? = some d) : p d = false := by
  have h2 := List.head?_dropWhile_not p as
  rw [h] at h2
  exact h2

theorem dropWhile_eq_self_of_head? (p : Char → Bool) (v : Str)
    (h : ∀ d, v.head? = some d → p d = false) : v.dropWhile p = v := by
  cases v with
  | nil => rfl
  | cons d ds => exact List.dropWhile_cons_of_neg (by simp [h d rfl])

theorem takeWhile_eq_nil_of_head? (p : Char → Bool) (v : Str)
    (h : ∀ d, v.head? = some d → p d = false) : v.takeWhile p = [] := by
  cases v with
  | nil => rfl
  | cons d ds => exact List.takeWhile_cons_of_neg (by simp [h d rfl])

theorem run_decomp (c : Char) (as : Str) :
    as = List.replicate (as.takeWhile (· = c)).length c ++ as.dropWhile (· = c) := by
  conv_lhs => rw [← List.takeWhile_append_dropWhile (p := (· = c)) (l := as)]
  rw [← takeWhile_eq_c_replicate]

theorem takeWhile_c_replicate_append (c : Char) (r : Nat) (w : Str)
    (hw : ∀ d, w.head? = some d → ¬ d = c) :
    (List.replicate r c ++ w).takeWhile (· = c) = List.replicate r c := by
  rw [List.takeWhile_append_of_pos
      (fun a ha => by simp [List.eq_of_mem_replicate ha]),
    takeWhile_eq_nil_of_head? _ _ (fun d hd => by simp [hw d hd]),
    List.append_nil]

theorem dropWhile_c_replicate_append (c : Char) (r : Nat) (w : Str)
    (hw : ∀ d, w.head? = some d → ¬ d = c) :
    (List.replicate r c ++ w).dropWhile (· = c) = w := by
  rw [List.dropWhile_append_of_pos
      (fun a ha => by simp [List.eq_of_mem_replicate ha]),
    dropWhile_eq_self_of_head? _ _ (fun d hd => by simp [hw d hd])]

/-- Heads of `subRuns`-dropWhile tails are never `c`. -/
theorem subRuns_dropWhile_head_ne (c : Char) (t m : Nat) (as : Str) :
    ∀ d, (subRuns c t m (as.dropWhile (· = c))).head? = some d → ¬ d = c := by
  intro d hd
  rcases hrest : as.dropWhile (· = c) with _ | ⟨e, es⟩
  · rw [hrest, subRuns_nil] at hd
    cases hd
  · have he : ¬ e = c := by
      have := head?_dropWhile_ne (· = c) as (d := e) (by rw [hrest]; rfl)
      simpa using this
    rw [hrest, subRuns_cons_ne he] at hd
    cases hd
    exact he

/-- A run of `r < t` copies of `c` followed by a `c`-free-headed string
with no `t`-run has no `t`-run. -/
theorem noRuns_c_replicate_append (c : Char) {t r : Nat} (hr1 : 1 ≤ r)
    (hrt : r < t) (w : Str) (hw : ∀ d, w.head? = some d → ¬ d = c)
    (hnr : noRuns c t w = true) :
    noRuns c t (List.replicate r c ++ w) = true := by
  obtain ⟨r', rfl⟩ : ∃ r', r = r' + 1 := ⟨r - 1, by omega⟩
  rw [List.replicate_succ, List.cons_append, noRuns_cons_eq,
    takeWhile_c_replicate_append c r' w hw, dropWhile_c_replicate_append c r' w hw,
    List.length_replicate]
  simp only [hnr, Bool.and_true, decide_eq_true_eq]
  omega

/-- P1: the output of `subRuns c t m` (with `1 ≤ m < t`) has no `t`-run
of `c`. -/
theorem noRuns_subRuns_aux (c : Char) {t m : Nat} (hm : 1 ≤ m) (hmt : m < t) :
    ∀ (n : Nat) (v : Str), v.length ≤ n → noRuns c t (subRuns c t m v) = true := by
  intro n
  induction n with
  | zero =>
    intro v hv
    rw [List.length_eq_zero.mp (Nat.le_zero.mp hv), subRuns_nil, noRuns_nil]
  | succ n ih =>
    intro v hv
    rcases v with _ | ⟨a, as⟩
    · rw [subRuns_nil, noRuns_nil]
    · have has : as.length ≤ n := by
        simpa using Nat.lt_succ_iff.mp (Nat.lt_of_lt_of_le (by simp) hv)
      by_cases hac : c = a
      · subst hac
        have hrest : (as.dropWhile (· = c)).length ≤ n :=
          le_trans (List.dropWhile_sublist _).length_le has
        have hS : noRuns c t (subRuns c t m (as.dropWhile (· = c))) = true :=
          ih _ hrest
        have hhead := subRuns_dropWhile_head_ne c t m as
        rw [subRuns_cons_eq]
        split
        · exact noRuns_c_replicate_append c hm hmt _ hhead hS
        · rw [takeWhile_eq_c_replicate c as, ← List.replicate_succ]
          refine noRuns_c_replicate_append c (by omega) ?_ _ hhead hS
          omega
      · rw [subRuns_cons_ne (fun h => hac h.symm),
          noRuns_cons_ne (fun h => hac h.symm)]
        exact ih as has

theorem noRuns_subRuns (c : Char) {t m : Nat} (hm : 1 ≤ m) (hmt : m < t)
    (v : Str) : noRuns c t (subRuns c t m v) = true :=
  noRuns_subRuns_aux c hm hmt v.length v (le_refl _)

/-- P2: `subRuns c t m` is the identity on strings with no `t`-run of `c`. -/
theorem subRuns_eq_self_aux (c : Char) (t m : Nat) :
    ∀ (n : Nat) (v : Str), v.length ≤ n → noRuns c t v = true →
      subRuns c t m v = v := by
  intro n
  induction n with
  | zero =>
    intro v hv _
    rw [List.length_eq_zero.mp (Nat.le_zero.mp hv), subRuns_nil]
  | succ n ih =>
    intro v hv hnr
    rcases v with _ | ⟨a, as⟩
    · rw [subRuns_nil]
    · have has : as.length ≤ n := by
        simpa using Nat.lt_succ_iff.mp (Nat.lt_of_lt_of_le (by simp) hv)
      by_cases hac : c = a
      · subst hac
        rw [noRuns_cons_eq] at hnr
        have hlt : (as.takeWhile (· = c)).length + 1 < t := by
          have := (Bool.and_eq_true _ _).mp hnr
          simpa using this.1
        have hrest : noRuns c t (as.dropWhile (· = c)) = true :=
          ((Bool.and_eq_true _ _).mp hnr).2
        rw [subRuns_cons_eq, if_neg (by omega)]
        rw [ih _ (le_trans (List.dropWhile_sublist _).length_le has) hrest]
        rw [List.cons_append, List.takeWhile_append_dropWhile]
      · rw [noRuns_cons_ne (fun h => hac h.symm)] at hnr
        rw [subRuns_cons_ne (fun h => hac h.symm), ih as has hnr]

theorem subRuns_eq_self (c : Char) (t m : Nat) {v : Str}
    (hnr : noRuns c t v = true) : subRuns c t m v = v :=
  subRuns_eq_self_aux c t m v.length v (le_refl _) hnr

/-- `noRuns` for `c'` ignores a leading run of a different character. -/
theorem noRuns_skip_replicate {c c' : Char} (h : ¬ c = c') (t' : Nat)
    (r : Nat) (v : Str) :
    noRuns c' t' (List.replicate r c ++ v) = noRuns c' t' v := by
  induction r with
  | zero => rfl
  | succ k ih =>
    rw [List.replicate_succ, List.cons_append, noRuns_cons_ne h, ih]

/-- `subRuns c` passes a run of a different character through unchanged. -/
theorem subRuns_skip_replicate {c c' : Char} (h : ¬ c' = c) (t m : Nat)
    (k : Nat) (v : Str) :
    subRuns c t m (List.replicate k c' ++ v) =
      List.replicate k c' ++ subRuns c t m v := by
  induction k with
  | zero => rfl
  | succ j ih =>
    rw [List.replicate_succ, List.cons_append, subRuns_cons_ne h, ih,
      List.cons_append]

/-- Heads of `subRuns c` outputs are `c` or heads of the input. -/
theorem subRuns_head_cases (c : Char) {t m : Nat} (hm : 1 ≤ m) (v : Str)
    {d : Char} (hd : (subRuns c t m v).head? = some d) :
    d = c ∨ v.head? = some d := by
  rcases v with _ | ⟨a, as⟩
  · rw [subRuns_nil] at hd
    cases hd
  · by_cases hac : c = a
    · subst hac
      rw [subRuns_cons_eq] at hd
      left
      split at hd
      · obtain ⟨m', rfl⟩ : ∃ m', m = m' + 1 := ⟨m - 1, by omega⟩
        rw [List.replicate_succ, List.cons_append, List.head?_cons] at hd
        exact (Option.some_inj.mp hd).symm
      · rw [List.cons_append, List.head?_cons] at hd
        exact (Option.some_inj.mp hd).symm
    · rw [subRuns_cons_ne (fun h => hac h.symm)] at hd
      right
      exact hd

/-- P3: collapsing runs of `c` preserves the absence of `t'`-runs of a
different character `c'`. -/
theorem noRuns_subRuns_other_aux {c c' : Char} (hcc : ¬ c = c') {t' t m : Nat}
    (hm : 1 ≤ m) :
    ∀ (n : Nat) (v : Str), v.length ≤ n → noRuns c' t' v = true →
      noRuns c' t' (subRuns c t m v) = true := by
  intro n
  induction n with
  | zero =>
    intro v hv _
    rw [List.length_eq_zero.mp (Nat.le_zero.mp hv), subRuns_nil, noRuns_nil]
  | succ n ih =>
    intro v hv hnr
    rcases v with _ | ⟨a, as⟩
    · rw [subRuns_nil]
      exact hnr
    · have has : as.length ≤ n := by
        simpa using Nat.lt_succ_iff.mp (Nat.lt_of_lt_of_le (by simp) hv)
      by_cases hac : c = a
      · subst hac
        rw [subRuns_cons_eq]
        rw [noRuns_cons_ne hcc] at hnr
        have hnr_rest : noRuns c' t' (as.dropWhile (· = c)) = true := by
          rw [run_decomp c as, noRuns_skip_replicate hcc] at hnr
          exact hnr
        have hS : noRuns c' t' (subRuns c t m (as.dropWhile (· = c))) = true :=
          ih _ (le_trans (List.dropWhile_sublist _).length_le has) hnr_rest
        split
        · rw [noRuns_skip_replicate hcc]
          exact hS
        · rw [takeWhile_eq_c_replicate c as, ← List.replicate_succ,
            noRuns_skip_replicate hcc]
          exact hS
      · by_cases hac' : c' = a
        · subst hac'
          rw [noRuns_cons_eq] at hnr
          obtain ⟨hlt, hbs⟩ := (Bool.and_eq_true _ _).mp hnr
          rw [subRuns_cons_ne (fun h => hcc h.symm), noRuns_cons_eq]
          have hwhead : ∀ d,
              (subRuns c t m (as.dropWhile (· = c'))).head? = some d →
                ¬ d = c' := by
            intro d hd
            rcases subRuns_head_cases c hm _ hd with rfl | hh
            · exact hcc
            · simpa using head?_dropWhile_ne (· = c') as hh
          have hSas : subRuns c t m as =
              List.replicate (as.takeWhile (· = c')).length c' ++
                subRuns c t m (as.dropWhile (· = c')) := by
            conv_lhs => rw [run_decomp c' as]
            rw [subRuns_skip_replicate (fun h => hcc h.symm)]
          rw [hSas, takeWhile_c_replicate_append c' _ _ hwhead,
            dropWhile_c_replicate_append c' _ _ hwhead, List.length_replicate]
          refine (Bool.and_eq_true _ _).mpr ⟨by simpa using hlt, ?_⟩
          exact ih _ (le_trans (List.dropWhile_sublist _).length_le has) hbs
        · rw [noRuns_cons_ne (fun h => hac' h.symm)] at hnr
          rw [subRuns_cons_ne (fun h => hac h.symm),
            noRuns_cons_ne (fun h => hac' h.symm)]
          exact ih as has hnr

theorem noRuns_subRuns_other {c c' : Char} (hcc : ¬ c = c') {t' t m : Nat}
    (hm : 1 ≤ m) (v : Str) (hnr : noRuns c' t' v = true) :
    noRuns c' t' (subRuns c t m v) = true :=
  noRuns_subRuns_other_aux hcc hm v.length v (le_refl _) hnr

theorem replicate_prefix_of_le (c : Char) {t r : Nat} (h : t ≤ r) :
    List.replicate t c <+: List.replicate r c :=
  ⟨List.replicate (r - t) c, by rw [← List.replicate_add]; congr 1; omega⟩

theorem replicate_prefix_peel (c : Char) :
    ∀ (j i : Nat) (v : Str), List.replicate i c <+: List.replicate j c ++ v →
      i ≤ j ∨ List.replicate (i - j) c <+: v := by
  intro j
  induction j with
  | zero =>
    intro i v h
    right
    simpa using h
  | succ j ih =>
    intro i v h
    rcases i with _ | i
    · left; omega
    · rw [List.replicate_succ, List.replicate_succ, List.cons_append,
        List.cons_prefix_cons] at h
      rcases ih i v h.2 with h' | h'
      · left; omega
      · right
        simpa [Nat.succ_sub_succ] using h'

theorem replicate_infix_append (c : Char) {t : Nat} (ht : 1 ≤ t) :
    ∀ (j : Nat) (v : Str), (∀ d, v.head? = some d → ¬ d = c) →
      List.replicate t c <:+: List.replicate j c ++ v →
      t ≤ j ∨ List.replicate t c <:+: v := by
  intro j
  induction j with
  | zero =>
    intro v _ h
    right
    simpa using h
  | succ j ih =>
    intro v hv h
    rw [List.replicate_succ, List.cons_append, List.infix_cons_iff] at h
    rcases h with hpre | hinf
    · obtain ⟨t', rfl⟩ : ∃ t', t = t' + 1 := ⟨t - 1, by omega⟩
      rw [List.replicate_succ, List.cons_prefix_cons] at hpre
      rcases replicate_prefix_peel c j t' v hpre.2 with h' | h'
      · left; omega
      · by_cases hz : t' - j = 0
        · left; omega
        · obtain ⟨k, hk⟩ : ∃ k, t' - j = k + 1 := ⟨t' - j - 1, by omega⟩
          rw [hk, List.replicate_succ] at h'
          exfalso
          rcases v with _ | ⟨d, ds⟩
          · simp at h'
          · rw [List.cons_prefix_cons] at h'
            exact hv d rfl h'.1.symm
    · rcases ih v hv hinf with h' | h'
      · left; omega
      · right; exact h'

/-- The bridge: `noRuns c t v` holds exactly when `t` consecutive copies
of `c` are not an infix of `v`. -/
theorem noRuns_iff_no_run (c : Char) {t : Nat} (ht : 1 ≤ t) :
    ∀ (n : Nat) (v : Str), v.length ≤ n →
      (noRuns c t v = true ↔ ¬ List.replicate t c <:+: v) := by
  intro n
  induction n with
  | zero =>
    intro v hv
    rw [List.length_eq_zero.mp (Nat.le_zero.mp hv), noRuns_nil]
    simp only [List.infix_nil, true_iff]
    intro h
    have := congrArg List.length h
    simp at this
    omega
  | succ n ih =>
    intro v hv
    rcases v with _ | ⟨a, as⟩
    · rw [noRuns_nil]
      simp only [List.infix_nil, true_iff]
      intro h
      have := congrArg List.length h
      simp at this
      omega
    · have has : as.length ≤ n := by
        simpa using Nat.lt_succ_iff.mp (Nat.lt_of_lt_of_le (by simp) hv)
      by_cases hac : c = a
      · subst hac
        rw [noRuns_cons_eq]
        have hwhead : ∀ d, (as.dropWhile (· = c)).head? = some d → ¬ d = c :=
          fun d hd => by simpa using head?_dropWhile_ne (· = c) as hd
        have hshape : (c :: as : Str) =
            List.replicate ((as.takeWhile (· = c)).length + 1) c ++
              as.dropWhile (· = c) := by
          rw [List.replicate_succ, List.cons_append, ← takeWhile_eq_c_replicate,
            List.takeWhile_append_dropWhile]
        have hrlen : (as.dropWhile (· = c)).length ≤ n :=
          le_trans (List.dropWhile_sublist _).length_le has
        constructor
        · intro h hinf
          obtain ⟨hlt, hrest⟩ := (Bool.and_eq_true _ _).mp h
          rw [hshape] at hinf
          rcases replicate_infix_append c ht _ _ hwhead hinf with h' | h'
          · simp only [decide_eq_true_eq] at hlt
            omega
          · exact (ih _ hrlen).mp hrest h'
        · intro hn
          refine (Bool.and_eq_true _ _).mpr ⟨?_, ?_⟩
          · simp only [decide_eq_true_eq]
            by_contra hk
            apply hn
            rw [hshape]
            exact ((replicate_prefix_of_le c (by omega)).trans
              (List.prefix_append _ _)).isInfix
          · refine (ih _ hrlen).mpr ?_
            intro hinf
            apply hn
            have : as.dropWhile (· = c) <:+ (c :: as : Str) := by
              refine (List.dropWhile_suffix _).trans ?_
              exact List.suffix_cons _ _
            exact hinf.trans this.isInfix
      · rw [noRuns_cons_ne (fun h => hac h.symm)]
        rw [ih as has]
        constructor
        · intro h hinf
          rcases List.infix_cons_iff.mp hinf with hpre | hinf'
          · obtain ⟨t', rfl⟩ : ∃ t', t = t' + 1 := ⟨t - 1, by omega⟩
            rw [List.replicate_succ, List.cons_prefix_cons] at hpre
            exact hac hpre.1
          · exact h hinf'
        · intro h hinf
          exact h (List.infix_cons hinf)

theorem noRuns_of_infix {c : Char} {t : Nat} (ht : 1 ≤ t) {u v : Str}
    (huv : u <:+: v) (h : noRuns c t v = true) : noRuns c t u = true := by
  rw [noRuns_iff_no_run c ht u.length u (le_refl _)]
  intro hinf
  exact (noRuns_iff_no_run c ht v.length v (le_refl _)).mp h (hinf.trans huv)

theorem prefix_head? {u v : Str} (h : u <+: v) (hne : u ≠ []) :
    v.head? = u.head? := by
  obtain ⟨w, rfl⟩ := h
  rcases u with _ | ⟨a, as⟩
  · exact absurd rfl hne
  · rfl

theorem pyStrip_infix_self (v : Str) : pyStrip v <:+: v := by
  have h1 : v.dropWhile isPySpace <:+ v := List.dropWhile_suffix _
  have h2 : (v.dropWhile isPySpace).reverse.dropWhile isPySpace <:+
      (v.dropWhile isPySpace).reverse := List.dropWhile_suffix _
  have h3 := List.reverse_prefix.mpr h2
  rw [List.reverse_reverse] at h3
  exact h3.isInfix.trans h1.isInfix

theorem pyStrip_idem (v : Str) : pyStrip (pyStrip v) = pyStrip v := by
  unfold pyStrip
  set A := v.dropWhile isPySpace with hA
  set B := A.reverse.dropWhile isPySpace with hB
  have hBrev : B.reverse.dropWhile isPySpace = B.reverse := by
    apply dropWhile_eq_self_of_head?
    intro d hd
    have hpre : B.reverse <+: A := by
      have h2 : B <:+ A.reverse := by rw [hB]; exact List.dropWhile_suffix _
      have h3 := List.reverse_prefix.mpr h2
      rwa [List.reverse_reverse] at h3
    have hne : B.reverse ≠ [] := by
      intro e
      rw [e] at hd
      cases hd
    have hAh : A.head? = some d := by rw [prefix_head? hpre hne]; exact hd
    rw [hA] at hAh
    exact head?_dropWhile_ne isPySpace v hAh
  rw [hBrev, List.reverse_reverse]
  have hBdrop : B.dropWhile isPySpace = B := by
    apply dropWhile_eq_self_of_head?
    intro d hd
    rw [hB] at hd
    exact head?_dropWhile_ne isPySpace A.reverse hd
  rw [hBdrop]

/-- Claim C8: the whitespace normalization of `_process_html` — collapse
3-or-more newlines to two, collapse 2-or-more spaces to one, trim leading
and trailing whitespace — is idempotent: applying it twice produces the
same output as applying it once. -/
theorem normalize_idempotent (s : Str) :
    normalizeText (normalizeText s) = normalizeText s := by
  have hx : noRuns '\n' 3 (collapseNl s) = true := by
    rw [collapseNl]
    exact noRuns_subRuns '\n' (by omega) (by omega) s
  have hy_nl : noRuns '\n' 3 (collapseSp (collapseNl s)) = true := by
    rw [collapseSp]
    exact noRuns_subRuns_other (by decide) (by omega) _ hx
  have hy_sp : noRuns ' ' 2 (collapseSp (collapseNl s)) = true := by
    rw [collapseSp]
    exact noRuns_subRuns ' ' (by omega) (by omega) _
  have hz_nl : noRuns '\n' 3 (normalizeText s) = true := by
    rw [normalizeText]
    exact noRuns_of_infix (by omega) (pyStrip_infix_self _) hy_nl
  have hz_sp : noRuns ' ' 2 (normalizeText s) = true := by
    rw [normalizeText]
    exact noRuns_of_infix (by omega) (pyStrip_infix_self _) hy_sp
  have hstrip : pyStrip (normalizeText s) = normalizeText s := by
    rw [normalizeText, pyStrip_idem]
  conv_lhs => rw [normalizeText]
  rw [show collapseNl (normalizeText s) = normalizeText s from by
      rw [collapseNl]; exact subRuns_eq_self _ _ _ hz_nl]
  rw [show collapseSp (normalizeText s) = normalizeText s from by
      rw [collapseSp]; exact subRuns_eq_self _ _ _ hz_sp]
  exact hstrip

end KADB
